import Mathlib

/-!
Verification development for the sec-tracker ticker-resolution pipeline.

The definitions below are a shallow embedding, translated from the Python
sources `app/services/ticker_lookup.py`, `app/services/wikidata.py` and
`app/services/sec_client.py`.  External providers (the SEC ticker
directory, the Wikidata HTTP API and the text-completion model) are
modelled as components of an explicit environment `Env`; provider contact
is made observable through an explicit `Call` trace returned next to each
result.  Similarity scores, which the Python code keeps as floats in
[0, 100] and divides by 100 before comparing with the thresholds, are kept
here as exact rationals in [0, 1].
-/

namespace SecTracker

/-- Python `str.upper()` on ASCII text: uppercase every character.
(Defined characterwise so that proofs can evaluate it; the library
`String.toUpper` recurses on byte positions, which the kernel cannot
reduce.) -/
def upperStr (s : String) : String :=
  String.mk (s.data.map Char.toUpper)

/-- Python `str.strip()` : drop leading and trailing whitespace. -/
def pyStrip (s : String) : String :=
  String.mk (((s.data.dropWhile Char.isWhitespace).reverse.dropWhile Char.isWhitespace).reverse)

/-- One row of the SEC company-ticker directory, as cached by
`SECClient._get_ticker_map` (the values of the ticker map): trading
symbol, legal title as filed, and the numeric CIK identifier. -/
structure SecInfo where
  ticker : String
  title : String
  cik : Nat
deriving DecidableEq, Repr

/-- `str(cik).zfill(10)` : decimal representation left-padded with
zeros to 10 characters. -/
def zfill10 (n : Nat) : String :=
  let s := toString n
  String.mk (List.replicate (10 - s.length) '0') ++ s

/-- Characters removed by `sec_client._normalize_name` : the regex
class `[.,']` (period, comma, apostrophe). -/
def isStripped (c : Char) : Bool :=
  c = '.' || c = ',' || c = Char.ofNat 39

/-- Collapse every run of whitespace to a single space
(`re.sub(r"\s+", " ", name)`); the flag records whether the previous
character was whitespace. -/
def collapseWsAux : Bool → List Char → List Char
  | _, [] => []
  | prevWs, c :: cs =>
    if c.isWhitespace then
      if prevWs then collapseWsAux true cs else ' ' :: collapseWsAux true cs
    else
      c :: collapseWsAux false cs

/-- Collapse every run of whitespace to a single space. -/
def collapseWs (l : List Char) : List Char :=
  collapseWsAux false l

/-- `sec_client._normalize_name` : uppercase, strip `[.,']`, collapse
whitespace runs to one space, strip surrounding whitespace. -/
def normalizeName (s : String) : String :=
  pyStrip (String.mk (collapseWs (((upperStr s).data).filter (fun c => !isStripped c))))

/-- The key list `_sec_names` built by
`TickerLookupService._ensure_sec_data` : uppercased titles in order of
first appearance (Python dict keys preserve first-insertion order). -/
def secNames (reg : List SecInfo) : List String :=
  reg.foldl (fun ks info =>
    let k := upperStr info.title
    if ks.contains k then ks else ks ++ [k]) []

/-- The value list `_sec_name_to_tickers[name]` : every directory row
whose uppercased title equals `name`, in directory order. -/
def nameToTickers (reg : List SecInfo) (name : String) : List SecInfo :=
  reg.filter (fun info => upperStr info.title == name)

/-! ### The fuzzy scorer

`rapidfuzz.process.extract(query, names, scorer=fuzz.token_set_ratio,
limit=limit)` with the default `processor=None`: every name is scored
with `token_set_ratio` and the pairs are ordered by descending score,
ties keeping first appearance (the semantics of `heapq.nlargest`), then
truncated to `limit`. -/

/-- Python `str.split()` : split on whitespace runs, no empty pieces. -/
def pySplitAux : List Char → List Char → List String
  | [], acc => if acc.isEmpty then [] else [String.mk acc.reverse]
  | c :: cs, acc =>
    if c.isWhitespace then
      if acc.isEmpty then pySplitAux cs [] else String.mk acc.reverse :: pySplitAux cs []
    else
      pySplitAux cs (c :: acc)

/-- Python `str.split()` on a string. -/
def pySplit (s : String) : List String :=
  pySplitAux s.data []

/-- Code-point lexicographic comparison of character lists, the order
Python `sorted` uses on strings. -/
def charsLe : List Char → List Char → Bool
  | [], _ => true
  | _ :: _, [] => false
  | a :: as, b :: bs =>
    if a.toNat < b.toNat then true
    else if b.toNat < a.toNat then false
    else charsLe as bs

/-- Code-point lexicographic comparison of strings. -/
def strLe (a b : String) : Bool :=
  charsLe a.data b.data

/-- Insert into a lexicographically sorted list of strings (duplicates
kept; deduplication happens afterwards). -/
def insertStr (x : String) : List String → List String
  | [] => [x]
  | y :: ys => if strLe x y then x :: y :: ys else y :: insertStr x ys

/-- Lexicographic insertion sort of the token list. -/
def sortStrs : List String → List String
  | [] => []
  | x :: xs => insertStr x (sortStrs xs)

/-- Remove adjacent duplicates of a sorted list, giving the sorted set
of tokens (`sorted(set(s.split()))`). -/
def dedupSorted : List String → List String
  | [] => []
  | [a] => [a]
  | a :: b :: t => if a = b then dedupSorted (b :: t) else a :: dedupSorted (b :: t)

/-- The sorted, deduplicated whitespace tokens of a string, as used by
`token_set_ratio`. -/
def sortedTokens (s : String) : List String :=
  dedupSorted (sortStrs (pySplit s))

/-- One row of the longest-common-subsequence dynamic program:
`next j` from `prev` for character `x`.  `diag` is `prev[j-1]`,
`left` is `curr[j-1]`. -/
def lcsRowGo (x : Char) : Nat → Nat → List Char → List Nat → List Nat
  | _, _, [], _ => []
  | _, _, _ :: _, [] => []
  | diag, left, c :: cs, pj :: prest =>
    let cur := if c = x then diag + 1 else max left pj
    cur :: lcsRowGo x pj cur cs prest

/-- Length of the longest common subsequence of two character lists. -/
def lcsLen (a b : List Char) : Nat :=
  let init : List Nat := List.replicate (b.length + 1) 0
  (a.foldl (fun prev x => 0 :: lcsRowGo x (prev.headD 0) 0 b prev.tail) init).getLastD 0

/-- InDel (insertion/deletion only) edit distance, the distance
underlying `rapidfuzz.fuzz.ratio`. -/
def indelDist (s t : String) : Nat :=
  s.length + t.length - 2 * lcsLen s.data t.data

/-- Joined length of a token list: `len(" ".join(tokens))`. -/
def joinedLen (l : List String) : Nat :=
  (" ".intercalate l).length

/-- `rapidfuzz.fuzz.token_set_ratio(s1, s2)`, rescaled from [0, 100] to
the rational interval [0, 1] (the caller divides by 100 anyway): sorted
unique whitespace tokens of both sides; 1 when the intersection is
non-empty and one side's tokens are contained in the other; otherwise
the maximum of the InDel ratio of the joined difference sets (normalised
over the lengths of "sect diff_ab" and "sect diff_ba") and the two
ratios of the intersection string against each full side.  Each
normalised similarity `1 - dist/total` is written `mkRat (total - dist)
total`, which is the same rational (the distance never exceeds the
total). -/
def tokenSetScore (s1 s2 : String) : ℚ :=
  let ta := sortedTokens s1
  let tb := sortedTokens s2
  if ta = [] ∨ tb = [] then 0
  else
    let sect := ta.filter (fun t => tb.contains t)
    let dab := ta.filter (fun t => !tb.contains t)
    let dba := tb.filter (fun t => !ta.contains t)
    if sect ≠ [] ∧ (dab = [] ∨ dba = []) then 1
    else
      let abJ := " ".intercalate dab
      let baJ := " ".intercalate dba
      let abLen := abJ.length
      let baLen := baJ.length
      let sectLen := joinedLen sect
      let sb : Nat := if sectLen = 0 then 0 else 1
      let sectAb := sectLen + sb + abLen
      let sectBa := sectLen + sb + baLen
      let dist := indelDist abJ baJ
      let base : ℚ := mkRat (Int.ofNat (sectAb + sectBa - dist)) (sectAb + sectBa)
      if sectLen = 0 then base
      else
        let r1 : ℚ := mkRat (Int.ofNat (sectLen + sectAb - (sb + abLen))) (sectLen + sectAb)
        let r2 : ℚ := mkRat (Int.ofNat (sectLen + sectBa - (sb + baLen))) (sectLen + sectBa)
        max base (max r1 r2)

/-- Stable insertion into a list sorted by descending score: the new
element goes after every strictly higher score and before ties coming
later in the original list. -/
def insertDesc (score : α → ℚ) (x : α) : List α → List α
  | [] => [x]
  | y :: ys => if score x < score y then y :: insertDesc score x ys else x :: y :: ys

/-- Stable descending sort by score (the ordering `heapq.nlargest`
produces). -/
def sortDesc (score : α → ℚ) : List α → List α
  | [] => []
  | x :: xs => insertDesc score x (sortDesc score xs)

/-- `process.extract(query, names, scorer=token_set_ratio, limit)` :
every name paired with its score, stably sorted by descending score,
truncated to `limit`. -/
def extractTop (q : String) (names : List String) (limit : Nat) : List (String × ℚ) :=
  (sortDesc (fun p => p.2) (names.map (fun n => (n, tokenSetScore q n)))).take limit

/-- One fuzzy-match candidate `(ticker, name, cik, score)` returned by
`TickerLookupService._fuzzy_match_sec`. -/
structure MatchCand where
  ticker : String
  name : String
  cik : String
  score : ℚ
deriving DecidableEq, Repr

/-! ### The knowledge-graph client (`app/services/wikidata.py`) -/

/-- One hit of `WikidataClient.search` (`wbsearchentities`). -/
structure WSearchItem where
  qid : String
  label : String
  description : String
deriving DecidableEq, Repr

/-- The parsed entity returned by `WikidataClient.get_entity` : label,
the claim targets of P127 (owned by), P749 (parent organization),
P414 (stock exchange), and the string values of P249 (ticker) and
P946 (ISIN). -/
structure WEntity where
  label : String
  owners : List String
  parents : List String
  exchanges : List String
  ticker : Option String
  isin : Option String
deriving DecidableEq, Repr

/-- The success value of `WikidataClient.find_public_parent`. -/
structure ParentInfo where
  qid : String
  label : String
  ticker : Option String
  isin : Option String
  chain : List String
deriving DecidableEq, Repr

/-- The success value of `WikidataClient.lookup_subsidiary`. -/
structure SubResult where
  query : String
  wikidata_match : WSearchItem
  public_parent : String
  ticker : Option String
  isin : Option String
  chain : List String
deriving DecidableEq, Repr

/-- The text-completion reply as seen by `_llm_identify_company` :
the content string and whether the provider reported an error. -/
structure LLMResponse where
  content : String
  error : Bool
deriving DecidableEq, Repr

/-- The three external providers of §6, as one explicit environment:
the SEC ticker directory rows, Wikidata entity search, Wikidata
entity-by-id fetch (`none` for a missing entity or failed request), and
the generative model keyed by the query it is asked about. -/
structure Env where
  registry : List SecInfo
  wsearch : String → Nat → List WSearchItem
  wentity : String → Option WEntity
  llm : String → LLMResponse

/-- One observable provider contact: a registry access (the SEC
directory fetch, cached after first use), a graph text search, a graph
entity fetch, or a generative-model call. -/
inductive Call where
  | registry : Call
  | wsearch : String → Call
  | wentity : String → Call
  | llm : String → Call
deriving DecidableEq, Repr

/-- `TickerLookupService._fuzzy_match_sec` : score the uppercased query
against every cached SEC name, then emit one candidate per ticker of
each retained name, all sharing that name's score. -/
def fuzzyMatchSec (env : Env) (query : String) (limit : Nat) : List MatchCand :=
  (extractTop (upperStr query) (secNames env.registry) limit).flatMap
    (fun p => (nameToTickers env.registry p.1).map
      (fun info => ⟨info.ticker, info.title, zfill10 info.cik, p.2⟩))

/-- The next node of the traversal: the first `owned by` target when
one exists, otherwise the first `parent organization` target; the
selected id then passes Python's `if not next_qid` truthiness check, so
an empty-string id stops the walk. -/
def nextQid (e : WEntity) : Option String :=
  let n : Option String :=
    match e.owners with
    | o :: _ => some o
    | [] =>
      match e.parents with
      | p :: _ => some p
      | [] => none
  match n with
  | some q => if q = "" then none else some q
  | none => none

/-- The loop body of `WikidataClient.find_public_parent`, with the
remaining iteration budget as fuel; next to the result it returns the
list of entity ids fetched (each loop pass fetches its current id once,
after the visited check).  `visited` and `chain` are the loop's mutable
set and list. -/
def findPublicParentAux (env : Env) :
    Nat → List String → List String → String → Option ParentInfo × List String
  | 0, _, _, _ => (none, [])
  | fuel + 1, visited, chain, cur =>
    if cur ∈ visited then (none, [])
    else
      match env.wentity cur with
      | none => (none, [cur])
      | some e =>
        if e.exchanges ≠ [] then
          (some ⟨cur, e.label, e.ticker, e.isin, chain ++ [e.label]⟩, [cur])
        else
          match nextQid e with
          | none => (none, [cur])
          | some nxt =>
            let r := findPublicParentAux env fuel (cur :: visited) (chain ++ [e.label]) nxt
            (r.1, cur :: r.2)

/-- `WikidataClient.find_public_parent(qid, max_depth)` : bounded walk
up the ownership chain from `qid`, returning the first publicly traded
node (non-empty stock-exchange claims) with the accumulated label
chain, plus the fetched ids. -/
def findPublicParent (env : Env) (qid : String) (maxDepth : Nat) :
    Option ParentInfo × List String :=
  findPublicParentAux env maxDepth [] [] qid

/-- The candidate loop of `WikidataClient.lookup_subsidiary` : try
`find_public_parent` on each search hit in rank order, keeping the
first success; the trace records every entity fetch made on the way. -/
def trySubsidiary (env : Env) (query : String) :
    List WSearchItem → Option SubResult × List Call
  | [] => (none, [])
  | m :: rest =>
    let r := findPublicParent env m.qid 5
    match r.1 with
    | some pi =>
      (some ⟨query, m, pi.label, pi.ticker, pi.isin, pi.chain⟩, r.2.map Call.wentity)
    | none =>
      let next := trySubsidiary env query rest
      (next.1, r.2.map Call.wentity ++ next.2)

/-- `WikidataClient.lookup_subsidiary(query)` : search the graph for
the top 3 candidates, then try each in order (the early return on an
empty hit list coincides with the loop doing nothing). -/
def lookupSubsidiary (env : Env) (query : String) : Option SubResult × List Call :=
  let r := trySubsidiary env query (env.wsearch query 3)
  (r.1, Call.wsearch query :: r.2)

/-- `TickerLookupService._llm_identify_company` : a provider error or a
(case-insensitively) `UNKNOWN` reply is a miss; otherwise the stripped
content is returned as an unverified name guess.  The model is an
opaque function, so it is keyed directly by the query the prompt is
built from. -/
def llmIdentifyCompany (env : Env) (query : String) : Option String × List Call :=
  let resp := env.llm query
  if resp.error then (none, [Call.llm query])
  else
    let name := pyStrip resp.content
    if upperStr name = "UNKNOWN" then (none, [Call.llm query])
    else (some name, [Call.llm query])

/-! ### The resolution orchestrator (`TickerLookupService.lookup`) -/

/-- `LookupMethod` : how the ticker was resolved.  `wikidata` is the
spec's knowledge-graph method and `llm` its generative method. -/
inductive LookupMethod where
  | direct : LookupMethod
  | wikidata : LookupMethod
  | llm : LookupMethod
  | fallback : LookupMethod
deriving DecidableEq, Repr

/-- `LookupResult` : the value returned by a single resolution. -/
structure LookupResult where
  query : String
  ticker : Option String
  company_name : Option String
  method : LookupMethod
  confidence : ℚ
  chain : Option (List String) := none
deriving DecidableEq, Repr

/-- `DIRECT_MATCH_THRESHOLD = 0.85`. -/
def DIRECT_MATCH_THRESHOLD : ℚ := mkRat 85 100

/-- `SEC_MATCH_THRESHOLD = 0.70`. -/
def SEC_MATCH_THRESHOLD : ℚ := mkRat 70 100

/-- The chain-retry loop of stage 2: when the public parent matched the
SEC data poorly, walk the ownership chain from the root back toward the
query (`reversed(chain[:-1])`, so the already-tried final label is
excluded), refetch a limit-1 fuzzy match for each label, and keep the
strictly best-scoring candidate found. -/
def chainRetry (env : Env) (chain : List String) (b0 : MatchCand) : MatchCand :=
  (chain.dropLast).reverse.foldl
    (fun b ln =>
      match fuzzyMatchSec env ln 1 with
      | a :: _ => if b.score < a.score then a else b
      | [] => b) b0

/-- Stage 2 of `lookup` : Wikidata subsidiary traversal, SEC match of
the parent label (limit 3), chain retry below `SEC_MATCH_THRESHOLD`,
and a fixed 0.9 confidence on success. -/
def wikidataStage (env : Env) (query : String) : Option LookupResult × List Call :=
  let w := lookupSubsidiary env query
  match w.1 with
  | none => (none, w.2)
  | some wr =>
    match fuzzyMatchSec env wr.public_parent 3 with
    | [] => (none, w.2 ++ [Call.registry])
    | b0 :: _ =>
      let best := if b0.score < SEC_MATCH_THRESHOLD ∧ wr.chain ≠ []
        then chainRetry env wr.chain b0 else b0
      let retryTrace := if b0.score < SEC_MATCH_THRESHOLD ∧ wr.chain ≠ []
        then (wr.chain.dropLast).map (fun _ => Call.registry) else []
      if SEC_MATCH_THRESHOLD ≤ best.score then
        (some ⟨query, some best.ticker, some best.name, .wikidata, mkRat 9 10, some wr.chain⟩,
         w.2 ++ Call.registry :: retryTrace)
      else
        (none, w.2 ++ Call.registry :: retryTrace)

/-- Stage 3 of `lookup` : ask the generative model for a name, verify
it against the SEC data (limit 3), and accept with a fixed 0.85
confidence when the best re-match reaches `SEC_MATCH_THRESHOLD`. -/
def llmStage (env : Env) (query : String) : Option LookupResult × List Call :=
  let g := llmIdentifyCompany env query
  match g.1 with
  | none => (none, g.2)
  | some nm =>
    match fuzzyMatchSec env nm 3 with
    | [] => (none, g.2 ++ [Call.registry])
    | m :: _ =>
      if SEC_MATCH_THRESHOLD ≤ m.score then
        (some ⟨query, some m.ticker, some m.name, .llm, mkRat 85 100, none⟩,
         g.2 ++ [Call.registry])
      else
        (none, g.2 ++ [Call.registry])

/-- `TickerLookupService.lookup` : strip the query, return an empty
fallback for an empty string, then run the four stages in order with
their short-circuit returns.  The paired list is the trace of provider
contacts actually made. -/
def lookup (env : Env) (query0 : String) : LookupResult × List Call :=
  let query := pyStrip query0
  if query = "" then
    (⟨query, none, none, .fallback, 0, none⟩, [])
  else
    let direct := fuzzyMatchSec env query 5
    let s1 : Option LookupResult :=
      match direct with
      | top :: _ =>
        if DIRECT_MATCH_THRESHOLD ≤ top.score then
          some ⟨query, some top.ticker, some top.name, .direct, top.score, none⟩
        else none
      | [] => none
    match s1 with
    | some r => (r, [Call.registry])
    | none =>
      let w := wikidataStage env query
      match w.1 with
      | some r => (r, Call.registry :: w.2)
      | none =>
        let g := llmStage env query
        match g.1 with
        | some r => (r, Call.registry :: (w.2 ++ g.2))
        | none =>
          match direct with
          | top :: _ =>
            (⟨query, some top.ticker, some top.name, .fallback, top.score, none⟩,
             Call.registry :: (w.2 ++ g.2))
          | [] =>
            (⟨query, none, none, .fallback, 0, none⟩,
             Call.registry :: (w.2 ++ g.2))

/-! ### The multi-result search (`TickerLookupService.search`) -/

/-- One entry of the list `search` returns. -/
structure SearchEntry where
  ticker : String
  name : Option String
  cik : Option String
  match_type : String
  score : ℚ
  chain : Option (List String)
deriving DecidableEq, Repr

/-- The string value of a `LookupMethod` (`method.value`). -/
def methodValue : LookupMethod → String
  | .direct => "direct"
  | .wikidata => "wikidata"
  | .llm => "llm"
  | .fallback => "fallback"

/-- `SECClient.ticker_to_cik` : directory lookup by uppercased ticker
symbol. -/
def tickerToCik (env : Env) (t : String) : Option String :=
  (env.registry.find? (fun i => i.ticker == upperStr t)).map (fun i => zfill10 i.cik)

/-- A direct fuzzy candidate as a `search` result entry. -/
def entryOfCand (c : MatchCand) : SearchEntry :=
  ⟨c.ticker, some c.name, some c.cik, "direct", c.score, none⟩

/-- The result loop of `search` : append each direct candidate whose
ticker is not yet present, then stop as soon as the list has reached
`limit` entries (the length test runs after the append). -/
def searchLoop (limit : Nat) :
    List MatchCand → List SearchEntry → List String → List SearchEntry
  | [], acc, _ => acc
  | c :: rest, acc, seen =>
    let step :=
      if seen.contains c.ticker then (acc, seen)
      else (acc ++ [entryOfCand c], c.ticker :: seen)
    if limit ≤ step.1.length then step.1
    else searchLoop limit rest step.1 step.2

/-- Candidates deduplicated by ticker, preserving order, relative to a
set of already-seen tickers.  This is the spec-side description of how
`search` fills its remainder ("Direct-stage candidates, deduplicated by
ticker, preserving fuzzy-match order"); `searchLoop` is proved equal to
a truncation of this stream. -/
def dedupByTicker (seen : List String) : List MatchCand → List MatchCand
  | [] => []
  | c :: rest =>
    if c.ticker ∈ seen then dedupByTicker seen rest
    else c :: dedupByTicker (c.ticker :: seen) rest

/-- `TickerLookupService.search(query, limit)` : strip the query, run
the full single-result `lookup` first, place its answer first when
`lookup_result.ticker` is truthy (present and non-empty, Python string
truthiness) and the method is the Wikidata or LLM stage, then fill with
direct fuzzy candidates deduplicated by ticker. -/
def search (env : Env) (query0 : String) (limit : Nat) : List SearchEntry :=
  let query := pyStrip query0
  if query = "" then []
  else
    let lr := (lookup env query).1
    let initial : List SearchEntry :=
      match lr.ticker with
      | some t =>
        if t ≠ "" ∧ (lr.method = .wikidata ∨ lr.method = .llm) then
          [⟨t, lr.company_name, tickerToCik env t, methodValue lr.method,
            lr.confidence, lr.chain⟩]
        else []
      | none => []
    searchLoop limit (fuzzyMatchSec env query limit) initial (initial.map (fun e => e.ticker))

end SecTracker

namespace SecTracker

/-- The label an entity id resolves to (empty for a missing entity);
used to relate traversal chains to fetched ids. -/
def labelOf (env : Env) (x : String) : String :=
  match env.wentity x with
  | some e => e.label
  | none => ""

theorem findPublicParentAux_fetch_length (env : Env) :
    ∀ (fuel : Nat) (v c : List String) (cur : String),
      (findPublicParentAux env fuel v c cur).2.length ≤ fuel := by
  intro fuel
  induction fuel with
  | zero => intro v c cur; simp [findPublicParentAux]
  | succ n ih =>
    intro v c cur
    unfold findPublicParentAux
    by_cases hv : cur ∈ v
    · simp [hv]
    · simp only [if_neg hv]
      cases he : env.wentity cur with
      | none => simp
      | some e =>
        by_cases hx : e.exchanges ≠ []
        · simp [hx]
        · simp only [if_neg hx]
          cases hn : nextQid e with
          | none => simp
          | some nxt =>
            simp only [List.length_cons]
            exact Nat.succ_le_succ (ih (cur :: v) (c ++ [e.label]) nxt)

theorem findPublicParentAux_fetch_fresh (env : Env) :
    ∀ (fuel : Nat) (v c : List String) (cur : String) (x : String),
      x ∈ (findPublicParentAux env fuel v c cur).2 → x ∉ v := by
  intro fuel
  induction fuel with
  | zero => intro v c cur x hx; simp [findPublicParentAux] at hx
  | succ n ih =>
    intro v c cur x hx
    unfold findPublicParentAux at hx
    by_cases hv : cur ∈ v
    · simp [hv] at hx
    · simp only [if_neg hv] at hx
      cases he : env.wentity cur with
      | none => simp [he] at hx; exact hx ▸ hv
      | some e =>
        simp only [he] at hx
        by_cases hpub : e.exchanges ≠ []
        · simp [hpub] at hx; exact hx ▸ hv
        · simp only [if_neg hpub] at hx
          cases hn : nextQid e with
          | none => simp [hn] at hx; exact hx ▸ hv
          | some nxt =>
            simp only [hn, List.mem_cons] at hx
            rcases hx with rfl | hx
            · exact hv
            · have := ih (cur :: v) (c ++ [e.label]) nxt x hx
              exact fun hxv => this (List.mem_cons_of_mem _ hxv)

theorem findPublicParentAux_fetch_nodup (env : Env) :
    ∀ (fuel : Nat) (v c : List String) (cur : String),
      (findPublicParentAux env fuel v c cur).2.Nodup := by
  intro fuel
  induction fuel with
  | zero => intro v c cur; simp [findPublicParentAux]
  | succ n ih =>
    intro v c cur
    unfold findPublicParentAux
    by_cases hv : cur ∈ v
    · simp [hv]
    · simp only [if_neg hv]
      cases he : env.wentity cur with
      | none => simp
      | some e =>
        by_cases hpub : e.exchanges ≠ []
        · simp [hpub]
        · simp only [if_neg hpub]
          cases hn : nextQid e with
          | none => simp
          | some nxt =>
            refine List.nodup_cons.mpr ⟨fun hmem => ?_, ih (cur :: v) (c ++ [e.label]) nxt⟩
            exact findPublicParentAux_fetch_fresh env n (cur :: v) (c ++ [e.label]) nxt cur hmem
              (List.mem_cons_self cur v)

theorem findPublicParentAux_success (env : Env) :
    ∀ (fuel : Nat) (v c : List String) (cur : String) (pinfo : ParentInfo),
      (findPublicParentAux env fuel v c cur).1 = some pinfo →
      ∃ pre e, (findPublicParentAux env fuel v c cur).2 = pre ++ [pinfo.qid] ∧
        env.wentity pinfo.qid = some e ∧ e.exchanges ≠ [] ∧
        pinfo.label = e.label ∧ pinfo.ticker = e.ticker ∧ pinfo.isin = e.isin ∧
        pinfo.chain = c ++ (pre ++ [pinfo.qid]).map (labelOf env) ∧
        (∀ x ∈ pre, ∃ ex, env.wentity x = some ex ∧ ex.exchanges = []) := by
  intro fuel
  induction fuel with
  | zero => intro v c cur pinfo h; simp [findPublicParentAux] at h
  | succ n ih =>
    intro v c cur pinfo h
    unfold findPublicParentAux at h ⊢
    by_cases hv : cur ∈ v
    · simp [hv] at h
    · simp only [if_neg hv] at h ⊢
      cases he : env.wentity cur with
      | none => simp [he] at h
      | some e =>
        simp only [he] at h ⊢
        by_cases hpub : e.exchanges ≠ []
        · simp only [if_pos hpub, Option.some_inj] at h
          subst h
          refine ⟨[], e, by simp [hpub], he, hpub, rfl, rfl, rfl, ?_, by simp⟩
          simp [labelOf, he, hpub]
        · simp only [if_neg hpub] at h ⊢
          cases hn : nextQid e with
          | none => simp [hn] at h
          | some nxt =>
            simp only [hn] at h ⊢
            obtain ⟨pre, e', h2, he', hx', hl, ht, hi, hc, hnp⟩ :=
              ih (cur :: v) (c ++ [e.label]) nxt pinfo h
            push_neg at hpub
            refine ⟨cur :: pre, e', ?_, he', hx', hl, ht, hi, ?_, ?_⟩
            · simp [h2]
            · simp only [List.cons_append, List.map_cons, hc, labelOf, he]
              simp
            · intro x hx
              rcases List.mem_cons.mp hx with rfl | hx
              · exact ⟨e, he, hpub⟩
              · exact hnp x hx

end SecTracker

namespace SecTracker

theorem findPublicParent_chain_shape (env : Env) (qid : String) (d : Nat)
    (pinfo : ParentInfo) (h : (findPublicParent env qid d).1 = some pinfo) :
    pinfo.chain ≠ [] := by
  obtain ⟨pre, e, -, -, -, -, -, -, hc, -⟩ :=
    findPublicParentAux_success env d [] [] qid pinfo h
  simp [hc]

theorem trySubsidiary_eq_findSome (env : Env) (q : String) (items : List WSearchItem) :
    (trySubsidiary env q items).1 =
      items.findSome? (fun m => ((findPublicParent env m.qid 5).1).map
        (fun pinfo => ⟨q, m, pinfo.label, pinfo.ticker, pinfo.isin, pinfo.chain⟩)) := by
  induction items with
  | nil => rfl
  | cons m rest ih =>
    unfold trySubsidiary
    cases hp : (findPublicParent env m.qid 5).1 with
    | some pinfo => simp [List.findSome?_cons, hp]
    | none => simp [List.findSome?_cons, hp, ih]

theorem trySubsidiary_some_chain (env : Env) (q : String) :
    ∀ (items : List WSearchItem) (wr : SubResult),
      (trySubsidiary env q items).1 = some wr → wr.chain ≠ [] := by
  intro items
  induction items with
  | nil => intro wr h; simp [trySubsidiary] at h
  | cons m rest ih =>
    intro wr h
    unfold trySubsidiary at h
    cases hp : (findPublicParent env m.qid 5).1 with
    | some pinfo =>
      simp only [hp, Option.some_inj] at h
      subst h
      exact findPublicParent_chain_shape env m.qid 5 pinfo hp
    | none =>
      simp only [hp] at h
      exact ih wr h

theorem lookupSubsidiary_some_chain (env : Env) (q : String) (wr : SubResult)
    (h : (lookupSubsidiary env q).1 = some wr) : wr.chain ≠ [] :=
  trySubsidiary_some_chain env q (env.wsearch q 3) wr h

theorem wikidataStage_some_shape (env : Env) (q : String) (r : LookupResult)
    (h : (wikidataStage env q).1 = some r) :
    ∃ (wr : SubResult) (best : MatchCand), (lookupSubsidiary env q).1 = some wr ∧
      r = ⟨q, some best.ticker, some best.name, .wikidata, mkRat 9 10, some wr.chain⟩ ∧
      wr.chain ≠ [] ∧ SEC_MATCH_THRESHOLD ≤ best.score := by
  unfold wikidataStage at h
  cases hw : (lookupSubsidiary env q).1 with
  | none => simp [hw] at h
  | some wr =>
    simp only [hw] at h
    cases hm : fuzzyMatchSec env wr.public_parent 3 with
    | nil => simp [hm] at h
    | cons b0 brest =>
      simp only [hm] at h
      split at h
      case isTrue hretry =>
        split at h
        case isTrue hb =>
          exact ⟨wr, chainRetry env wr.chain b0, rfl, (Option.some_inj.mp h).symm,
            lookupSubsidiary_some_chain env q wr hw, hb⟩
        case isFalse hb =>
          exact absurd h (by simp)
      case isFalse hretry =>
        split at h
        case isTrue hb =>
          exact ⟨wr, b0, rfl, (Option.some_inj.mp h).symm,
            lookupSubsidiary_some_chain env q wr hw, hb⟩
        case isFalse hb =>
          exact absurd h (by simp)

theorem llmStage_some_shape (env : Env) (q : String) (r : LookupResult)
    (h : (llmStage env q).1 = some r) :
    ∃ nm m mrest, (llmIdentifyCompany env q).1 = some nm ∧
      fuzzyMatchSec env nm 3 = m :: mrest ∧ SEC_MATCH_THRESHOLD ≤ m.score ∧
      r = ⟨q, some m.ticker, some m.name, .llm, mkRat 85 100, none⟩ := by
  unfold llmStage at h
  cases hg : (llmIdentifyCompany env q).1 with
  | none => simp [hg] at h
  | some nm =>
    simp only [hg] at h
    cases hm : fuzzyMatchSec env nm 3 with
    | nil => simp [hm] at h
    | cons m mrest =>
      simp only [hm] at h
      split at h
      case isTrue hb =>
        exact ⟨nm, m, mrest, rfl, hm, hb, (Option.some_inj.mp h).symm⟩
      case isFalse hb =>
        exact absurd h (by simp)

theorem lookup_direct_branch (env : Env) (q0 : String) (top : MatchCand) (rest : List MatchCand)
    (hq : pyStrip q0 ≠ "")
    (hm : fuzzyMatchSec env (pyStrip q0) 5 = top :: rest)
    (hs : DIRECT_MATCH_THRESHOLD ≤ top.score) :
    lookup env q0 =
      (⟨pyStrip q0, some top.ticker, some top.name, .direct, top.score, none⟩, [Call.registry]) := by
  unfold lookup
  simp only [if_neg hq, hm, if_pos hs]

end SecTracker

namespace SecTracker

theorem mem_insertDesc {α : Type} (score : α → ℚ) (x a : α) :
    ∀ l : List α, a ∈ insertDesc score x l ↔ a = x ∨ a ∈ l := by
  intro l
  induction l with
  | nil => simp [insertDesc]
  | cons y ys ih =>
    unfold insertDesc
    by_cases hc : score x < score y
    · simp only [if_pos hc, List.mem_cons, ih]
      tauto
    · simp only [if_neg hc, List.mem_cons]

theorem mem_sortDesc {α : Type} (score : α → ℚ) (a : α) :
    ∀ l : List α, a ∈ sortDesc score l ↔ a ∈ l := by
  intro l
  induction l with
  | nil => simp [sortDesc]
  | cons y ys ih =>
    unfold sortDesc
    rw [mem_insertDesc, ih, List.mem_cons]

theorem pairwise_insertDesc {α : Type} (score : α → ℚ) (x : α) :
    ∀ l : List α, l.Pairwise (fun a b => score b ≤ score a) →
      (insertDesc score x l).Pairwise (fun a b => score b ≤ score a) := by
  intro l
  induction l with
  | nil => intro _; simp [insertDesc]
  | cons y ys ih =>
    intro hp
    rw [List.pairwise_cons] at hp
    unfold insertDesc
    by_cases hc : score x < score y
    · rw [if_pos hc, List.pairwise_cons]
      refine ⟨fun z hz => ?_, ih hp.2⟩
      rcases (mem_insertDesc score x z ys).mp hz with rfl | hz
      · exact le_of_lt hc
      · exact hp.1 z hz
    · rw [if_neg hc, List.pairwise_cons]
      push_neg at hc
      refine ⟨fun z hz => ?_, List.pairwise_cons.mpr hp⟩
      rcases List.mem_cons.mp hz with rfl | hz
      · exact hc
      · exact le_trans (hp.1 z hz) hc

theorem sortDesc_pairwise {α : Type} (score : α → ℚ) :
    ∀ l : List α, (sortDesc score l).Pairwise (fun a b => score b ≤ score a) := by
  intro l
  induction l with
  | nil => simp [sortDesc]
  | cons y ys ih => exact pairwise_insertDesc score y (sortDesc score ys) ih

theorem sortDesc_head_max {α : Type} (score : α → ℚ) (l : List α) (h : α) (t : List α)
    (hs : sortDesc score l = h :: t) : ∀ x ∈ l, score x ≤ score h := by
  intro x hx
  have hmem : x ∈ sortDesc score l := (mem_sortDesc score x l).mpr hx
  rw [hs, List.mem_cons] at hmem
  rcases hmem with rfl | hmem
  · exact le_refl _
  · have := sortDesc_pairwise score l
    rw [hs, List.pairwise_cons] at this
    exact this.1 x hmem

theorem mem_secNames_aux (n : String) :
    ∀ (reg : List SecInfo) (acc : List String),
      n ∈ reg.foldl (fun ks info =>
        let k := upperStr info.title
        if ks.contains k then ks else ks ++ [k]) acc ↔
      n ∈ acc ∨ ∃ info ∈ reg, upperStr info.title = n := by
  intro reg
  induction reg with
  | nil => intro acc; simp
  | cons i rest ih =>
    intro acc
    rw [List.foldl_cons, ih]
    by_cases hc : acc.contains (upperStr i.title)
    · have hmem : upperStr i.title ∈ acc := by simpa using hc
      simp only [if_pos hc]
      constructor
      · rintro (h | ⟨info, hm, hup⟩)
        · exact Or.inl h
        · exact Or.inr ⟨info, List.mem_cons_of_mem _ hm, hup⟩
      · rintro (h | ⟨info, hm, hup⟩)
        · exact Or.inl h
        · rcases List.mem_cons.mp hm with rfl | hm
          · exact Or.inl (hup ▸ hmem)
          · exact Or.inr ⟨info, hm, hup⟩
    · simp only [if_neg hc]
      constructor
      · rintro (h | ⟨info, hm, hup⟩)
        · rcases List.mem_append.mp h with h | h
          · exact Or.inl h
          · exact Or.inr ⟨i, List.mem_cons_self i rest, (List.mem_singleton.mp h).symm⟩
        · exact Or.inr ⟨info, List.mem_cons_of_mem _ hm, hup⟩
      · rintro (h | ⟨info, hm, hup⟩)
        · exact Or.inl (List.mem_append.mpr (Or.inl h))
        · rcases List.mem_cons.mp hm with rfl | hm
          · exact Or.inl (List.mem_append.mpr (Or.inr (by simp [hup])))
          · exact Or.inr ⟨info, hm, hup⟩

theorem mem_secNames (reg : List SecInfo) (n : String) :
    n ∈ secNames reg ↔ ∃ info ∈ reg, upperStr info.title = n := by
  unfold secNames
  rw [mem_secNames_aux]
  simp

theorem nameToTickers_ne_nil (reg : List SecInfo) (n : String)
    (h : n ∈ secNames reg) : nameToTickers reg n ≠ [] := by
  obtain ⟨info, hmem, hup⟩ := (mem_secNames reg n).mp h
  unfold nameToTickers
  intro hnil
  rw [List.filter_eq_nil_iff] at hnil
  exact hnil info hmem (by simp [hup])

theorem tokenSetScore_of_eq_tokens (s1 s2 : String)
    (h : sortedTokens s1 = sortedTokens s2) (hne : sortedTokens s1 ≠ []) :
    tokenSetScore s1 s2 = 1 := by
  unfold tokenSetScore
  rw [← h]
  rw [if_neg (by simp [hne])]
  rw [if_pos ?_]
  refine ⟨?_, Or.inl ?_⟩
  · rw [List.filter_eq_self.mpr]
    · exact hne
    · intro a ha; simp; exact ha
  · rw [List.filter_eq_nil_iff]
    intro a ha
    simp
    exact ha

end SecTracker

namespace SecTracker

theorem extractTop_perfect (q : String) (names : List String) (limit : Nat)
    (hl : 0 < limit) (n : String) (hn : n ∈ names) (hs : tokenSetScore q n = 1) :
    ∃ h t, extractTop q names limit = h :: t ∧ 1 ≤ h.2 := by
  have hpair : (n, tokenSetScore q n) ∈ names.map (fun m => (m, tokenSetScore q m)) :=
    List.mem_map_of_mem _ hn
  have hmem : (n, tokenSetScore q n) ∈
      sortDesc (fun p => p.2) (names.map (fun m => (m, tokenSetScore q m))) :=
    (mem_sortDesc _ _ _).mpr hpair
  obtain ⟨h, t, hht⟩ := List.exists_cons_of_ne_nil (List.ne_nil_of_mem hmem)
  have hge := sortDesc_head_max (fun p => p.2)
    (names.map (fun m => (m, tokenSetScore q m))) h t hht (n, tokenSetScore q n) hpair
  obtain ⟨k, rfl⟩ := Nat.exists_eq_succ_of_ne_zero (Nat.pos_iff_ne_zero.mp hl)
  refine ⟨h, t.take k, ?_, ?_⟩
  · unfold extractTop
    rw [hht, List.take_succ_cons]
  · calc (1 : ℚ) = tokenSetScore q n := hs.symm
    _ ≤ h.2 := hge

theorem extractTop_mem_names (q : String) (names : List String) (limit : Nat)
    (p : String × ℚ) (hp : p ∈ extractTop q names limit) :
    p.1 ∈ names ∧ p.2 = tokenSetScore q p.1 := by
  unfold extractTop at hp
  have hp2 := (mem_sortDesc _ _ _).mp (List.mem_of_mem_take hp)
  obtain ⟨n, hn, heq⟩ := List.mem_map.mp hp2
  constructor
  · rw [← heq]; exact hn
  · rw [← heq]

theorem fuzzyMatchSec_cons_of_extract (env : Env) (q : String) (limit : Nat)
    (p : String × ℚ) (ps : List (String × ℚ))
    (he : extractTop (upperStr q) (secNames env.registry) limit = p :: ps) :
    ∃ info irest rest, nameToTickers env.registry p.1 = info :: irest ∧
      fuzzyMatchSec env q limit =
        (⟨info.ticker, info.title, zfill10 info.cik, p.2⟩ : MatchCand) :: rest := by
  have hname : p.1 ∈ secNames env.registry :=
    (extractTop_mem_names (upperStr q) (secNames env.registry) limit p
      (he ▸ List.mem_cons_self p ps)).1
  obtain ⟨info, irest, hinfo⟩ :=
    List.exists_cons_of_ne_nil (nameToTickers_ne_nil env.registry p.1 hname)
  refine ⟨info, irest,
    (irest.map (fun i => (⟨i.ticker, i.title, zfill10 i.cik, p.2⟩ : MatchCand))) ++
      (ps.flatMap (fun pp => (nameToTickers env.registry pp.1).map
        (fun i => (⟨i.ticker, i.title, zfill10 i.cik, pp.2⟩ : MatchCand)))), hinfo, ?_⟩
  unfold fuzzyMatchSec
  rw [he, List.flatMap_cons, hinfo, List.map_cons, List.cons_append]

theorem lookup_direct_of_perfect_token_match (env : Env) (q0 : String) (entry : SecInfo)
    (hmem : entry ∈ env.registry)
    (htok : sortedTokens (upperStr (pyStrip q0)) = sortedTokens (upperStr entry.title))
    (hne : sortedTokens (upperStr (pyStrip q0)) ≠ []) :
    (lookup env q0).1.method = .direct ∧
    DIRECT_MATCH_THRESHOLD ≤ (lookup env q0).1.confidence := by
  have hq : pyStrip q0 ≠ "" := by
    intro hq
    rw [hq] at hne
    exact hne rfl
  have hscore : tokenSetScore (upperStr (pyStrip q0)) (upperStr entry.title) = 1 :=
    tokenSetScore_of_eq_tokens _ _ htok hne
  have hname : upperStr entry.title ∈ secNames env.registry :=
    (mem_secNames env.registry _).mpr ⟨entry, hmem, rfl⟩
  obtain ⟨h, t, hht, h1⟩ :=
    extractTop_perfect (upperStr (pyStrip q0)) (secNames env.registry) 5 (by norm_num)
      (upperStr entry.title) hname hscore
  obtain ⟨info, irest, rest, hinfo, hfuzzy⟩ :=
    fuzzyMatchSec_cons_of_extract env (pyStrip q0) 5 h t hht
  have hthr : DIRECT_MATCH_THRESHOLD ≤
      (⟨info.ticker, info.title, zfill10 info.cik, h.2⟩ : MatchCand).score :=
    le_trans (by norm_num [DIRECT_MATCH_THRESHOLD]) h1
  rw [lookup_direct_branch env q0 _ rest hq hfuzzy hthr]
  exact ⟨rfl, hthr⟩

end SecTracker

namespace SecTracker

theorem searchLoop_shape (limit : Nat) :
    ∀ (ms : List MatchCand) (acc : List SearchEntry) (seen : List String),
      ∃ sub : List MatchCand, sub.Sublist ms ∧ searchLoop limit ms acc seen = acc ++ sub.map entryOfCand := by
  intro ms
  induction ms with
  | nil =>
    intro acc seen
    exact ⟨[], List.nil_sublist _, by simp [searchLoop]⟩
  | cons c rest ih =>
    intro acc seen
    unfold searchLoop
    by_cases hc : seen.contains c.ticker
    · simp only [if_pos hc]
      by_cases hl : limit ≤ acc.length
      · rw [if_pos hl]
        exact ⟨[], List.nil_sublist _, by simp⟩
      · rw [if_neg hl]
        obtain ⟨sub, hsub, heq⟩ := ih acc seen
        exact ⟨sub, hsub.cons c, heq⟩
    · simp only [if_neg hc]
      by_cases hl : limit ≤ (acc ++ [entryOfCand c]).length
      · rw [if_pos hl]
        exact ⟨[c], (List.cons_sublist_cons.mpr (List.nil_sublist rest)), by simp⟩
      · rw [if_neg hl]
        obtain ⟨sub, hsub, heq⟩ := ih (acc ++ [entryOfCand c]) (c.ticker :: seen)
        refine ⟨c :: sub, List.cons_sublist_cons.mpr hsub, ?_⟩
        rw [heq, List.map_cons, List.append_assoc]
        simp

theorem searchLoop_length (limit : Nat) :
    ∀ (ms : List MatchCand) (acc : List SearchEntry) (seen : List String),
      (searchLoop limit ms acc seen).length ≤ max limit (acc.length + 1) := by
  intro ms
  induction ms with
  | nil =>
    intro acc seen
    simp only [searchLoop]
    exact le_max_of_le_right (Nat.le_succ _)
  | cons c rest ih =>
    intro acc seen
    unfold searchLoop
    by_cases hc : seen.contains c.ticker
    · simp only [if_pos hc]
      by_cases hl : limit ≤ acc.length
      · rw [if_pos hl]
        exact le_max_of_le_right (Nat.le_succ _)
      · rw [if_neg hl]
        exact ih acc seen
    · simp only [if_neg hc]
      by_cases hl : limit ≤ (acc ++ [entryOfCand c]).length
      · rw [if_pos hl]
        simp only [List.length_append, List.length_singleton]
        exact le_max_of_le_right (le_refl _)
      · rw [if_neg hl]
        refine le_trans (ih (acc ++ [entryOfCand c]) (c.ticker :: seen)) ?_
        have hlt : (acc ++ [entryOfCand c]).length < limit := Nat.lt_of_not_le hl
        rw [max_eq_left (Nat.succ_le_of_lt hlt)]
        exact le_max_left _ _

theorem searchLoop_nodup (limit : Nat) :
    ∀ (ms : List MatchCand) (acc : List SearchEntry) (seen : List String),
      ((acc.map SearchEntry.ticker).Nodup) → (∀ e ∈ acc, e.ticker ∈ seen) →
      ((searchLoop limit ms acc seen).map SearchEntry.ticker).Nodup := by
  intro ms
  induction ms with
  | nil =>
    intro acc seen hnd _
    simpa [searchLoop] using hnd
  | cons c rest ih =>
    intro acc seen hnd hseen
    unfold searchLoop
    by_cases hc : seen.contains c.ticker
    · simp only [if_pos hc]
      by_cases hl : limit ≤ acc.length
      · rw [if_pos hl]; exact hnd
      · rw [if_neg hl]; exact ih acc seen hnd hseen
    · simp only [if_neg hc]
      have hcnot : c.ticker ∉ seen := by simpa using hc
      have hnd2 : ((acc ++ [entryOfCand c]).map SearchEntry.ticker).Nodup := by
        rw [List.map_append]
        refine List.Nodup.append hnd (by simp) ?_
        intro t ht ht2
        simp only [List.map_cons, List.map_nil, List.mem_singleton, entryOfCand] at ht2
        obtain ⟨e, he, rfl⟩ := List.mem_map.mp ht
        exact hcnot (ht2 ▸ hseen e he)
      by_cases hl : limit ≤ (acc ++ [entryOfCand c]).length
      · rw [if_pos hl]; exact hnd2
      · rw [if_neg hl]
        refine ih (acc ++ [entryOfCand c]) (c.ticker :: seen) hnd2 ?_
        intro e he
        rcases List.mem_append.mp he with he | he
        · exact List.mem_cons_of_mem _ (hseen e he)
        · simp only [List.mem_singleton] at he
          subst he
          exact List.mem_cons_self _ _

end SecTracker

namespace SecTracker

/-! ### Branch lemmas for the orchestrator pipeline -/

theorem lookup_wikidata_branch (env : Env) (q0 : String) (r : LookupResult)
    (hq : pyStrip q0 ≠ "")
    (hd : ∀ c, (fuzzyMatchSec env (pyStrip q0) 5).head? = some c →
      c.score < DIRECT_MATCH_THRESHOLD)
    (hw : (wikidataStage env (pyStrip q0)).1 = some r) :
    (lookup env q0).1 = r := by
  unfold lookup
  simp only [if_neg hq]
  cases hdm : fuzzyMatchSec env (pyStrip q0) 5 with
  | nil => simp only [hw]
  | cons top trest =>
    have hlt := hd top (by rw [hdm]; rfl)
    simp only [if_neg (not_le_of_lt hlt), hw]

theorem lookup_llm_branch (env : Env) (q0 : String) (r : LookupResult)
    (hq : pyStrip q0 ≠ "")
    (hd : ∀ c, (fuzzyMatchSec env (pyStrip q0) 5).head? = some c →
      c.score < DIRECT_MATCH_THRESHOLD)
    (hw : (wikidataStage env (pyStrip q0)).1 = none)
    (hg : (llmStage env (pyStrip q0)).1 = some r) :
    (lookup env q0).1 = r := by
  unfold lookup
  simp only [if_neg hq]
  cases hdm : fuzzyMatchSec env (pyStrip q0) 5 with
  | nil => simp only [hw, hg]
  | cons top trest =>
    have hlt := hd top (by rw [hdm]; rfl)
    simp only [if_neg (not_le_of_lt hlt), hw, hg]

theorem lookup_fallback_branch (env : Env) (q0 : String)
    (hq : pyStrip q0 ≠ "")
    (hd : ∀ c, (fuzzyMatchSec env (pyStrip q0) 5).head? = some c →
      c.score < DIRECT_MATCH_THRESHOLD)
    (hw : (wikidataStage env (pyStrip q0)).1 = none)
    (hg : (llmStage env (pyStrip q0)).1 = none) :
    (∀ top rest, fuzzyMatchSec env (pyStrip q0) 5 = top :: rest →
      (lookup env q0).1 =
        ⟨pyStrip q0, some top.ticker, some top.name, .fallback, top.score, none⟩)
    ∧ (fuzzyMatchSec env (pyStrip q0) 5 = [] →
      (lookup env q0).1 = ⟨pyStrip q0, none, none, .fallback, 0, none⟩) := by
  constructor
  · intro top rest hdm
    unfold lookup
    have hlt := hd top (by rw [hdm]; rfl)
    simp only [if_neg hq, hdm, if_neg (not_le_of_lt hlt), hw, hg]
  · intro hdm
    unfold lookup
    simp only [if_neg hq, hdm, hw, hg]

theorem wikidataStage_fires (env : Env) (q : String) (wr : SubResult)
    (b0 : MatchCand) (brest : List MatchCand)
    (hw : (lookupSubsidiary env q).1 = some wr)
    (hm : fuzzyMatchSec env wr.public_parent 3 = b0 :: brest)
    (best : MatchCand)
    (hbest : best = if b0.score < SEC_MATCH_THRESHOLD ∧ wr.chain ≠ []
      then chainRetry env wr.chain b0 else b0)
    (hthr : SEC_MATCH_THRESHOLD ≤ best.score) :
    (wikidataStage env q).1 =
      some ⟨q, some best.ticker, some best.name, .wikidata, mkRat 9 10, some wr.chain⟩ := by
  unfold wikidataStage
  simp only [hw, hm]
  rw [← hbest]
  rw [if_pos hthr]

theorem llmStage_none_of_identify_none (env : Env) (q : String)
    (hg : (llmIdentifyCompany env q).1 = none) : (llmStage env q).1 = none := by
  unfold llmStage
  simp only [hg]

end SecTracker

namespace SecTracker

/-! ### Concrete environments for witnesses and counterexamples -/

/-- Directory row: Meta Platforms. -/
def metaInfo : SecInfo := ⟨"META", "Meta Platforms, Inc.", 1326801⟩

/-- Directory row: a second, unrelated company. -/
def wupInfo : SecInfo := ⟨"WUP", "WhatsUp Inc", 77⟩

/-- Directory row: a company whose legal title carries periods. -/
def abcInfo : SecInfo := ⟨"ABC", "A.B.C. Corp", 1⟩

/-- Directory rows: one legal name listed under two share classes. -/
def googlInfo : SecInfo := ⟨"GOOGL", "Alphabet Inc.", 1652044⟩

/-- Second share class of the same legal name. -/
def googInfo : SecInfo := ⟨"GOOG", "Alphabet Inc.", 1652044⟩

/-- Environment with a two-company registry and a graph in which
WhatsApp is owned by the publicly traded Meta Platforms. -/
def envMeta : Env where
  registry := [metaInfo, wupInfo]
  wsearch := fun q _ =>
    if q = "WhatsApp" then [⟨"Q1049511", "WhatsApp", "messaging service"⟩] else []
  wentity := fun qid =>
    if qid = "Q1049511" then some ⟨"WhatsApp", ["Q380"], [], [], none, none⟩
    else if qid = "Q380" then
      some ⟨"Meta Platforms, Inc.", [], [], ["Q13677"], some "META", none⟩
    else none
  llm := fun _ => ⟨"", true⟩

/-- Environment with a one-company registry, no graph data and a
failing model. -/
def envAbc : Env where
  registry := [abcInfo]
  wsearch := fun _ _ => []
  wentity := fun _ => none
  llm := fun _ => ⟨"", true⟩

/-- Environment whose graph is a two-cycle of private companies. -/
def envCycle : Env where
  registry := []
  wsearch := fun _ _ => []
  wentity := fun qid =>
    if qid = "QA" then some ⟨"A Holding", ["QB"], [], [], none, none⟩
    else if qid = "QB" then some ⟨"B Holding", ["QA"], [], [], none, none⟩
    else none
  llm := fun _ => ⟨"", true⟩

/-- Environment with a dual-share-class registry. -/
def envDual : Env where
  registry := [googlInfo, googInfo]
  wsearch := fun _ _ => []
  wentity := fun _ => none
  llm := fun _ => ⟨"", true⟩

/-- Environment whose model answers with a verifiable legal name. -/
def envGen : Env where
  registry := [metaInfo]
  wsearch := fun _ _ => []
  wentity := fun _ => none
  llm := fun _ => ⟨" Meta Platforms, Inc. ", false⟩

/-- Environment whose model declines with a lowercase unknown. -/
def envUnknown : Env where
  registry := [metaInfo]
  wsearch := fun _ _ => []
  wentity := fun _ => none
  llm := fun _ => ⟨"unknown", false⟩

/-- Environment with an empty registry and no providers answering. -/
def envNil : Env where
  registry := []
  wsearch := fun _ _ => []
  wentity := fun _ => none
  llm := fun _ => ⟨"", true⟩

end SecTracker

namespace SecTracker

/-! ### Claim theorems -/


/-- One-step unfolding of the traversal loop at positive fuel. -/
theorem findPublicParentAux_succ (env : Env) (fuel : Nat)
    (visited chain : List String) (cur : String) :
    findPublicParentAux env (fuel + 1) visited chain cur =
      (if cur ∈ visited then (none, [])
       else
        match env.wentity cur with
        | none => (none, [cur])
        | some e =>
          if e.exchanges ≠ [] then
            (some ⟨cur, e.label, e.ticker, e.isin, chain ++ [e.label]⟩, [cur])
          else
            match nextQid e with
            | none => (none, [cur])
            | some nxt =>
              ((findPublicParentAux env fuel (cur :: visited) (chain ++ [e.label]) nxt).1,
                cur :: (findPublicParentAux env fuel (cur :: visited)
                  (chain ++ [e.label]) nxt).2)) := by
  conv_lhs => unfold findPublicParentAux

/-- C1: whenever the Direct stage's limit-5 fuzzy match returns a top
candidate scoring at least `DIRECT_MATCH_THRESHOLD` (0.85), `lookup`
terminates at the Direct stage, returning that candidate's ticker and
name with method `direct` and confidence equal to the raw fuzzy score
(not a fixed constant), and its provider trace holds no knowledge-graph
or generative call. -/
theorem direct_stage_short_circuit (env : Env) (q0 : String) (top : MatchCand)
    (rest : List MatchCand) (hq : pyStrip q0 ≠ "")
    (hm : fuzzyMatchSec env (pyStrip q0) 5 = top :: rest)
    (hs : DIRECT_MATCH_THRESHOLD ≤ top.score) :
    lookup env q0 =
      (⟨pyStrip q0, some top.ticker, some top.name, .direct, top.score, none⟩,
        [Call.registry]) ∧
    ∀ s, Call.wsearch s ∉ (lookup env q0).2 ∧ Call.wentity s ∉ (lookup env q0).2 ∧
      Call.llm s ∉ (lookup env q0).2 := by
  have h := lookup_direct_branch env q0 top rest hq hm hs
  refine ⟨h, fun s => ?_⟩
  rw [h]
  refine ⟨by simp, by simp, by simp⟩

/-- Witness for C1 at a concrete exact-title query. -/
theorem direct_stage_short_circuit_witness :
    (lookup envAbc "A.B.C. Corp").1 =
      ⟨"A.B.C. Corp", some "ABC", some "A.B.C. Corp", .direct, 1, none⟩ ∧
    (lookup envAbc "A.B.C. Corp").2 = [Call.registry] := by
  have h := direct_stage_short_circuit envAbc "A.B.C. Corp"
    ⟨"ABC", "A.B.C. Corp", "0000000001", 1⟩ [] (by decide) (by decide) (by decide)
  rw [h.1]
  exact ⟨rfl, rfl⟩

/-- C10: a start entity already flagged publicly traded (non-empty
stock-exchange claims) resolves to itself with the singleton chain of
its own label, fetching only itself and following no ownership edge. -/
theorem public_query_entity_self_resolution (env : Env) (qid : String) (d : Nat)
    (e : WEntity) (hd : 1 ≤ d) (he : env.wentity qid = some e)
    (hx : e.exchanges ≠ []) :
    findPublicParent env qid d =
      (some ⟨qid, e.label, e.ticker, e.isin, [e.label]⟩, [qid]) := by
  obtain ⟨k, rfl⟩ := Nat.exists_eq_succ_of_ne_zero (Nat.pos_iff_ne_zero.mp hd)
  unfold findPublicParent findPublicParentAux
  rw [if_neg (List.not_mem_nil qid)]
  simp only [he, if_pos hx, List.nil_append]

/-- Witness for C10: the publicly traded Meta node resolves to itself. -/
theorem public_query_entity_self_resolution_witness :
    findPublicParent envMeta "Q380" 5 =
      (some ⟨"Q380", "Meta Platforms, Inc.", some "META", none,
        ["Meta Platforms, Inc."]⟩, ["Q380"]) := by
  exact public_query_entity_self_resolution envMeta "Q380" 5
    ⟨"Meta Platforms, Inc.", [], [], ["Q13677"], some "META", none⟩
    (by decide) (by decide) (by decide)

/-- C3: the ownership traversal fetches at most `max_depth` ids, never
the same id twice; a success is the first publicly traded node reached,
returned with the accumulated label chain including it (every earlier
fetched node being non-public); the walk reports not-found on an
exhausted depth budget, on a revisited id, on a missing entity and on a
node with no ownership edge; and the next node is always the first
`owned by` target when one exists, otherwise the first
`parent organization` target. -/
theorem find_public_parent_bounded_walk (env : Env) (qid : String) (d : Nat) :
    ((findPublicParent env qid d).2.length ≤ d)
    ∧ (findPublicParent env qid d).2.Nodup
    ∧ (∀ pinfo : ParentInfo, (findPublicParent env qid d).1 = some pinfo →
        ∃ pre e, (findPublicParent env qid d).2 = pre ++ [pinfo.qid] ∧
          env.wentity pinfo.qid = some e ∧ e.exchanges ≠ [] ∧
          pinfo.label = e.label ∧ pinfo.ticker = e.ticker ∧ pinfo.isin = e.isin ∧
          pinfo.chain = (pre ++ [pinfo.qid]).map (labelOf env) ∧
          (∀ x ∈ pre, ∃ ex, env.wentity x = some ex ∧ ex.exchanges = []))
    ∧ (∀ visited chain cur, findPublicParentAux env 0 visited chain cur = (none, []))
    ∧ (∀ fuel visited chain cur, cur ∈ visited →
        findPublicParentAux env (fuel + 1) visited chain cur = (none, []))
    ∧ (∀ fuel visited chain cur, cur ∉ visited → env.wentity cur = none →
        findPublicParentAux env (fuel + 1) visited chain cur = (none, [cur]))
    ∧ (∀ fuel visited chain cur e, cur ∉ visited → env.wentity cur = some e →
        e.exchanges = [] → e.owners = [] → e.parents = [] →
        findPublicParentAux env (fuel + 1) visited chain cur = (none, [cur]))
    ∧ (∀ fuel visited chain cur e o os, cur ∉ visited → env.wentity cur = some e →
        e.exchanges = [] → e.owners = o :: os → o ≠ "" →
        findPublicParentAux env (fuel + 1) visited chain cur =
          ((findPublicParentAux env fuel (cur :: visited) (chain ++ [e.label]) o).1,
            cur :: (findPublicParentAux env fuel (cur :: visited) (chain ++ [e.label]) o).2))
    ∧ (∀ fuel visited chain cur e p ps, cur ∉ visited → env.wentity cur = some e →
        e.exchanges = [] → e.owners = [] → e.parents = p :: ps → p ≠ "" →
        findPublicParentAux env (fuel + 1) visited chain cur =
          ((findPublicParentAux env fuel (cur :: visited) (chain ++ [e.label]) p).1,
            cur :: (findPublicParentAux env fuel (cur :: visited) (chain ++ [e.label]) p).2)) := by
  refine ⟨findPublicParentAux_fetch_length env d [] [] qid,
    findPublicParentAux_fetch_nodup env d [] [] qid, ?_, ?_, ?_, ?_, ?_, ?_, ?_⟩
  · intro pinfo h
    obtain ⟨pre, e, h2, he, hx, hl, ht, hi, hc, hnp⟩ :=
      findPublicParentAux_success env d [] [] qid pinfo h
    exact ⟨pre, e, h2, he, hx, hl, ht, hi, by simpa using hc, hnp⟩
  · intro visited chain cur
    rfl
  · intro fuel visited chain cur hv
    rw [findPublicParentAux_succ, if_pos hv]
  · intro fuel visited chain cur hv hnone
    rw [findPublicParentAux_succ, if_neg hv]
    simp only [hnone]
  · intro fuel visited chain cur e hv he hx ho hp
    rw [findPublicParentAux_succ, if_neg hv]
    simp only [he, if_neg (by simp [hx] : ¬ e.exchanges ≠ []), nextQid, ho, hp]
  · intro fuel visited chain cur e o os hv he hx ho hne
    rw [findPublicParentAux_succ, if_neg hv]
    simp only [he, if_neg (by simp [hx] : ¬ e.exchanges ≠ []), nextQid, ho,
      if_neg hne]
  · intro fuel visited chain cur e p ps hv he hx ho hp hne
    rw [findPublicParentAux_succ, if_neg hv]
    simp only [he, if_neg (by simp [hx] : ¬ e.exchanges ≠ []), nextQid, ho, hp,
      if_neg hne]

/-- Witness for C3: the two-cycle terminates not-found within bounds,
and the WhatsApp walk succeeds with the full provenance chain. -/
theorem find_public_parent_bounded_walk_witness :
    ((findPublicParent envCycle "QA" 5).2.length ≤ 5)
    ∧ (findPublicParent envCycle "QA" 5).2.Nodup
    ∧ (findPublicParent envCycle "QA" 5).1 = none
    ∧ (findPublicParent envCycle "QA" 5).2 = ["QA", "QB"]
    ∧ (∃ pre e, (findPublicParent envMeta "Q1049511" 5).2 = pre ++ ["Q380"] ∧
        envMeta.wentity "Q380" = some e ∧ e.exchanges ≠ [] ∧
        ("Meta Platforms, Inc." : String) = e.label ∧ some "META" = e.ticker ∧
        (none : Option String) = e.isin ∧
        (["WhatsApp", "Meta Platforms, Inc."] : List String) =
          (pre ++ ["Q380"]).map (labelOf envMeta) ∧
        (∀ x ∈ pre, ∃ ex, envMeta.wentity x = some ex ∧ ex.exchanges = []))
    ∧ findPublicParentAux envCycle 3 ["QA"] [] "QA" = (none, []) := by
  have h1 := find_public_parent_bounded_walk envCycle "QA" 5
  have h2 := find_public_parent_bounded_walk envMeta "Q1049511" 5
  refine ⟨h1.1, h1.2.1, by decide, by decide, ?_, ?_⟩
  · exact h2.2.2.1 ⟨"Q380", "Meta Platforms, Inc.", some "META", none,
      ["WhatsApp", "Meta Platforms, Inc."]⟩ (by decide)
  · exact h1.2.2.2.2.1 3 ["QA"] [] "QA" (List.mem_cons_self _ _)

end SecTracker

namespace SecTracker

/-- The LLM stage fires exactly when the verified re-match reaches the
threshold. -/
theorem llmStage_fires (env : Env) (q : String) (nm : String) (m : MatchCand)
    (mrest : List MatchCand)
    (hnm : (llmIdentifyCompany env q).1 = some nm)
    (hm : fuzzyMatchSec env nm 3 = m :: mrest)
    (hthr : SEC_MATCH_THRESHOLD ≤ m.score) :
    (llmStage env q).1 =
      some ⟨q, some m.ticker, some m.name, .llm, mkRat 85 100, none⟩ := by
  unfold llmStage
  simp only [hnm, hm]
  rw [if_pos hthr]

/-- C2: the knowledge-graph stage searches for the top 3 candidates and
uses the first whose ownership traversal succeeds, in search-rank
order; the parent label is fuzzy-matched against the registry
(limit 3); below `SEC_MATCH_THRESHOLD` the chain labels are retried
from the root toward the query (the already-tried final label
excluded), keeping the best strict improvement; and when the resulting
score reaches the threshold, `lookup` returns that ticker with method
`wikidata` (the knowledge-graph method) and confidence fixed at 0.9
regardless of the underlying match score. -/
theorem knowledge_graph_stage_resolution (env : Env) (q0 : String)
    (hq : pyStrip q0 ≠ "")
    (hd : ∀ c, (fuzzyMatchSec env (pyStrip q0) 5).head? = some c →
      c.score < DIRECT_MATCH_THRESHOLD) :
    ((lookupSubsidiary env (pyStrip q0)).1 =
      (env.wsearch (pyStrip q0) 3).findSome? (fun m =>
        ((findPublicParent env m.qid 5).1).map (fun pinfo =>
          ⟨pyStrip q0, m, pinfo.label, pinfo.ticker, pinfo.isin, pinfo.chain⟩)))
    ∧ (∀ (wr : SubResult) (b0 : MatchCand) (brest : List MatchCand),
        (lookupSubsidiary env (pyStrip q0)).1 = some wr →
        fuzzyMatchSec env wr.public_parent 3 = b0 :: brest →
        ∀ best : MatchCand,
          best = (if b0.score < SEC_MATCH_THRESHOLD ∧ wr.chain ≠ []
                  then chainRetry env wr.chain b0 else b0) →
          SEC_MATCH_THRESHOLD ≤ best.score →
          (lookup env q0).1 = ⟨pyStrip q0, some best.ticker, some best.name,
            .wikidata, mkRat 9 10, some wr.chain⟩) := by
  constructor
  · exact trySubsidiary_eq_findSome env (pyStrip q0) (env.wsearch (pyStrip q0) 3)
  · intro wr b0 brest hw hm best hbest hthr
    exact lookup_wikidata_branch env q0 _ hq hd
      (wikidataStage_fires env (pyStrip q0) wr b0 brest hw hm best hbest hthr)

/-- Witness for C2: the WhatsApp query resolves through the graph to
META with the fixed 0.9 confidence. -/
theorem knowledge_graph_stage_resolution_witness :
    (lookup envMeta "WhatsApp").1 =
      ⟨"WhatsApp", some "META", some "Meta Platforms, Inc.", .wikidata,
        mkRat 9 10, some ["WhatsApp", "Meta Platforms, Inc."]⟩ := by
  have h := knowledge_graph_stage_resolution envMeta "WhatsApp" (by decide) ?_
  · exact h.2
      ⟨"WhatsApp", ⟨"Q1049511", "WhatsApp", "messaging service"⟩,
        "Meta Platforms, Inc.", some "META", none,
        ["WhatsApp", "Meta Platforms, Inc."]⟩
      ⟨"META", "Meta Platforms, Inc.", "0001326801", 1⟩
      [⟨"WUP", "WhatsUp Inc", "0000000077", mkRat 14 31⟩]
      (by decide) (by decide)
      ⟨"META", "Meta Platforms, Inc.", "0001326801", 1⟩ (by decide) (by decide)
  · intro c hc
    have he : (fuzzyMatchSec envMeta (pyStrip "WhatsApp") 5).head? =
        some ⟨"WUP", "WhatsUp Inc", "0000000077", mkRat 12 19⟩ := by decide
    rw [he] at hc
    cases hc
    decide

/-- C5: the empty (all-whitespace) query returns immediately with a
null ticker, zero confidence and method `fallback`, contacting no
provider; and when all three resolution stages fail, `lookup` still
returns a well-formed fallback result: the Direct stage's best
candidate with its raw fuzzy score when one exists, otherwise a null
ticker with zero confidence (the embedding is total, so no exception
can escape). -/
theorem unresolved_pipeline_fallback (env : Env) (q0 : String) :
    (pyStrip q0 = "" →
      lookup env q0 = (⟨pyStrip q0, none, none, .fallback, 0, none⟩, []))
    ∧ (pyStrip q0 ≠ "" →
      (∀ c, (fuzzyMatchSec env (pyStrip q0) 5).head? = some c →
        c.score < DIRECT_MATCH_THRESHOLD) →
      (wikidataStage env (pyStrip q0)).1 = none →
      (llmStage env (pyStrip q0)).1 = none →
      ((∀ top rest, fuzzyMatchSec env (pyStrip q0) 5 = top :: rest →
          (lookup env q0).1 =
            ⟨pyStrip q0, some top.ticker, some top.name, .fallback, top.score, none⟩)
        ∧ (fuzzyMatchSec env (pyStrip q0) 5 = [] →
          (lookup env q0).1 = ⟨pyStrip q0, none, none, .fallback, 0, none⟩))) := by
  constructor
  · intro hq
    unfold lookup
    simp only [if_pos hq]
  · intro hq hd hw hg
    exact lookup_fallback_branch env q0 hq hd hw hg

/-- Witness for C5: a whitespace query, a totally unresolvable query on
an empty registry, and a below-threshold query that falls back to the
best direct candidate. -/
theorem unresolved_pipeline_fallback_witness :
    lookup envAbc "  " = (⟨"", none, none, .fallback, 0, none⟩, []) ∧
    (lookup envNil "zzzz").1 = ⟨"zzzz", none, none, .fallback, 0, none⟩ ∧
    (lookup envAbc "ABC Corp").1 =
      ⟨"ABC Corp", some "ABC", some "A.B.C. Corp", .fallback, mkRat 16 19, none⟩ := by
  refine ⟨?_, ?_, ?_⟩
  · exact (unresolved_pipeline_fallback envAbc "  ").1 (by decide)
  · refine ((unresolved_pipeline_fallback envNil "zzzz").2 (by decide) ?_
      (by decide) (by decide)).2 (by decide)
    intro c hc
    have he : (fuzzyMatchSec envNil (pyStrip "zzzz") 5).head? = none := by decide
    rw [he] at hc
    cases hc
  · refine ((unresolved_pipeline_fallback envAbc "ABC Corp").2 (by decide) ?_
      (by decide) (by decide)).1
      ⟨"ABC", "A.B.C. Corp", "0000000001", mkRat 16 19⟩ [] (by decide)
    intro c hc
    have he : (fuzzyMatchSec envAbc (pyStrip "ABC Corp") 5).head? =
        some ⟨"ABC", "A.B.C. Corp", "0000000001", mkRat 16 19⟩ := by decide
    rw [he] at hc
    cases hc
    decide

/-- C6: a provider error or a case-insensitive `UNKNOWN` reply makes
the generative stage a miss, advancing the pipeline to the fallback
stage; a returned name is never used as a ticker: it is re-verified by
fuzzy-matching against the registry (limit 3), and only when the best
re-match reaches `SEC_MATCH_THRESHOLD` does `lookup` return that
registry candidate's ticker with method `llm` (the generative method)
and confidence fixed at 0.85 independent of the match score. -/
theorem generative_stage_verification (env : Env) (q0 : String) :
    ((env.llm (pyStrip q0)).error = true →
      (llmIdentifyCompany env (pyStrip q0)).1 = none)
    ∧ (upperStr (pyStrip (env.llm (pyStrip q0)).content) = "UNKNOWN" →
      (llmIdentifyCompany env (pyStrip q0)).1 = none)
    ∧ (pyStrip q0 ≠ "" →
      (∀ c, (fuzzyMatchSec env (pyStrip q0) 5).head? = some c →
        c.score < DIRECT_MATCH_THRESHOLD) →
      (wikidataStage env (pyStrip q0)).1 = none →
      (((llmIdentifyCompany env (pyStrip q0)).1 = none →
        (lookup env q0).1.method = .fallback)
      ∧ (∀ nm m mrest, (llmIdentifyCompany env (pyStrip q0)).1 = some nm →
          fuzzyMatchSec env nm 3 = m :: mrest →
          SEC_MATCH_THRESHOLD ≤ m.score →
          (lookup env q0).1 =
            ⟨pyStrip q0, some m.ticker, some m.name, .llm, mkRat 85 100, none⟩))) := by
  refine ⟨?_, ?_, ?_⟩
  · intro herr
    unfold llmIdentifyCompany
    simp only [herr, if_pos]
  · intro hunk
    unfold llmIdentifyCompany
    by_cases herr : (env.llm (pyStrip q0)).error
    · simp only [herr, if_pos]
    · simp only [Bool.not_eq_true] at herr
      simp only [herr, Bool.false_eq_true, if_false, hunk, if_pos]
  · intro hq hd hw
    constructor
    · intro hnone
      have hg := llmStage_none_of_identify_none env (pyStrip q0) hnone
      have hfb := lookup_fallback_branch env q0 hq hd hw hg
      cases hdm : fuzzyMatchSec env (pyStrip q0) 5 with
      | nil => rw [hfb.2 hdm]
      | cons top trest => rw [hfb.1 top trest hdm]
    · intro nm m mrest hnm hm hthr
      exact lookup_llm_branch env q0 _ hq hd hw
        (llmStage_fires env (pyStrip q0) nm m mrest hnm hm hthr)

/-- Witness for C6: a provider error, a lowercase unknown reply, the
miss advancing to the fallback stage, and a verified generative
resolution with the fixed 0.85 confidence. -/
theorem generative_stage_verification_witness :
    (llmIdentifyCompany envAbc "x").1 = none ∧
    (llmIdentifyCompany envUnknown "facebook").1 = none ∧
    (lookup envUnknown "facebook").1.method = .fallback ∧
    (lookup envGen "facebook").1 =
      ⟨"facebook", some "META", some "Meta Platforms, Inc.", .llm,
        mkRat 85 100, none⟩ := by
  have hdfb : ∀ c, (fuzzyMatchSec envUnknown (pyStrip "facebook") 5).head? = some c →
      c.score < DIRECT_MATCH_THRESHOLD := by
    intro c hc
    have he : (fuzzyMatchSec envUnknown (pyStrip "facebook") 5).head? =
        some ⟨"META", "Meta Platforms, Inc.", "0001326801", mkRat 3 14⟩ := by decide
    rw [he] at hc
    cases hc
    decide
  have hdfb2 : ∀ c, (fuzzyMatchSec envGen (pyStrip "facebook") 5).head? = some c →
      c.score < DIRECT_MATCH_THRESHOLD := by
    intro c hc
    have he : (fuzzyMatchSec envGen (pyStrip "facebook") 5).head? =
        some ⟨"META", "Meta Platforms, Inc.", "0001326801", mkRat 3 14⟩ := by decide
    rw [he] at hc
    cases hc
    decide
  refine ⟨?_, ?_, ?_, ?_⟩
  · exact (generative_stage_verification envAbc "x").1 (by decide)
  · exact (generative_stage_verification envUnknown "facebook").2.1 (by decide)
  · exact ((generative_stage_verification envUnknown "facebook").2.2 (by decide)
      hdfb (by decide)).1 (by decide)
  · exact ((generative_stage_verification envGen "facebook").2.2 (by decide)
      hdfb2 (by decide)).2 "Meta Platforms, Inc."
      ⟨"META", "Meta Platforms, Inc.", "0001326801", 1⟩ [] (by decide) (by decide)
      (by decide)

end SecTracker

namespace SecTracker

/-- Exhaustive case analysis of the orchestrator: every `lookup` result
comes from exactly one of the empty-query return, the Direct stage, the
Wikidata stage, the LLM stage, or the two fallback returns. -/
theorem lookup_cases (env : Env) (q0 : String) :
    (pyStrip q0 = "" ∧ (lookup env q0).1 = ⟨pyStrip q0, none, none, .fallback, 0, none⟩)
    ∨ (∃ top rest, pyStrip q0 ≠ "" ∧ fuzzyMatchSec env (pyStrip q0) 5 = top :: rest ∧
        DIRECT_MATCH_THRESHOLD ≤ top.score ∧
        (lookup env q0).1 = ⟨pyStrip q0, some top.ticker, some top.name, .direct, top.score, none⟩)
    ∨ (∃ r, pyStrip q0 ≠ "" ∧ (wikidataStage env (pyStrip q0)).1 = some r ∧ (lookup env q0).1 = r)
    ∨ (∃ r, pyStrip q0 ≠ "" ∧ (llmStage env (pyStrip q0)).1 = some r ∧ (lookup env q0).1 = r)
    ∨ (∃ top rest, pyStrip q0 ≠ "" ∧ fuzzyMatchSec env (pyStrip q0) 5 = top :: rest ∧
        (lookup env q0).1 = ⟨pyStrip q0, some top.ticker, some top.name, .fallback, top.score, none⟩)
    ∨ (pyStrip q0 ≠ "" ∧ fuzzyMatchSec env (pyStrip q0) 5 = [] ∧
        (lookup env q0).1 = ⟨pyStrip q0, none, none, .fallback, 0, none⟩) := by
  by_cases hq : pyStrip q0 = ""
  · exact Or.inl ⟨hq, by simp only [lookup, if_pos hq]⟩
  · unfold lookup
    simp only [if_neg hq]
    cases hm : fuzzyMatchSec env (pyStrip q0) 5 with
    | cons top rest =>
      by_cases hs : DIRECT_MATCH_THRESHOLD ≤ top.score
      · exact Or.inr (Or.inl ⟨top, rest, hq, rfl, hs, by simp only [if_pos hs]⟩)
      · simp only [if_neg hs]
        cases hw : (wikidataStage env (pyStrip q0)).1 with
        | some r => exact Or.inr (Or.inr (Or.inl ⟨r, hq, rfl, by simp only []⟩))
        | none =>
          cases hg : (llmStage env (pyStrip q0)).1 with
          | some r => exact Or.inr (Or.inr (Or.inr (Or.inl ⟨r, hq, rfl, by simp only []⟩)))
          | none =>
            exact Or.inr (Or.inr (Or.inr (Or.inr (Or.inl ⟨top, rest, hq, rfl, by simp only []⟩))))
    | nil =>
      simp only
      cases hw : (wikidataStage env (pyStrip q0)).1 with
      | some r => exact Or.inr (Or.inr (Or.inl ⟨r, hq, rfl, by simp only []⟩))
      | none =>
        cases hg : (llmStage env (pyStrip q0)).1 with
        | some r => exact Or.inr (Or.inr (Or.inr (Or.inl ⟨r, hq, rfl, by simp only []⟩)))
        | none =>
          exact Or.inr (Or.inr (Or.inr (Or.inr (Or.inr ⟨hq, by trivial, by simp only []⟩))))

end SecTracker

namespace SecTracker

/-- C4: every `LookupResult` satisfies the data-model invariant: a
`direct` result carries the raw fuzzy score of the top candidate and no
chain; a `wikidata` (knowledge-graph) result carries a non-empty chain;
a null ticker comes with zero confidence and method `fallback`. -/
theorem lookup_result_invariant (env : Env) (q0 : String) :
    ((lookup env q0).1.method = .direct →
      (lookup env q0).1.chain = none ∧
      ∃ top rest, fuzzyMatchSec env (pyStrip q0) 5 = top :: rest ∧
        (lookup env q0).1.confidence = top.score ∧
        (lookup env q0).1.ticker = some top.ticker)
    ∧ ((lookup env q0).1.method = .wikidata →
        ∃ c, (lookup env q0).1.chain = some c ∧ c ≠ [])
    ∧ ((lookup env q0).1.ticker = none →
        (lookup env q0).1.confidence = 0 ∧ (lookup env q0).1.method = .fallback) := by
  rcases lookup_cases env q0 with ⟨hq, hL⟩ | ⟨top, rest, hq, hm, hs, hL⟩
    | ⟨r, hq, hw, hL⟩ | ⟨r, hq, hg, hL⟩ | ⟨top, rest, hq, hm, hL⟩ | ⟨hq, hm, hL⟩
  · rw [hL]
    exact ⟨fun h => absurd h (by simp), fun h => absurd h (by simp),
      fun _ => ⟨rfl, rfl⟩⟩
  · rw [hL]
    exact ⟨fun _ => ⟨rfl, top, rest, hm, rfl, rfl⟩,
      fun h => absurd h (by simp), fun h => absurd h (by simp)⟩
  · obtain ⟨wr, best, hsub, hr, hchain, hthr⟩ := wikidataStage_some_shape env _ r hw
    rw [hL, hr]
    exact ⟨fun h => absurd h (by simp), fun _ => ⟨wr.chain, rfl, hchain⟩,
      fun h => absurd h (by simp)⟩
  · obtain ⟨nm, m, mrest, hnm, hmm, hthr, hr⟩ := llmStage_some_shape env _ r hg
    rw [hL, hr]
    exact ⟨fun h => absurd h (by simp), fun h => absurd h (by simp),
      fun h => absurd h (by simp)⟩
  · rw [hL]
    exact ⟨fun h => absurd h (by simp), fun h => absurd h (by simp),
      fun h => absurd h (by simp)⟩
  · rw [hL]
    exact ⟨fun h => absurd h (by simp), fun h => absurd h (by simp),
      fun _ => ⟨rfl, rfl⟩⟩

/-- Witness for C4: each invariant clause discharged at a concrete
resolution of the matching method. -/
theorem lookup_result_invariant_witness :
    ((lookup envAbc "Corp A.B.C.").1.chain = none) ∧
    (∃ c, (lookup envMeta "WhatsApp").1.chain = some c ∧ c ≠ []) ∧
    ((lookup envNil "zzzz").1.confidence = 0 ∧
      (lookup envNil "zzzz").1.method = .fallback) := by
  refine ⟨?_, ?_, ?_⟩
  · exact ((lookup_result_invariant envAbc "Corp A.B.C.").1 (by decide)).1
  · exact (lookup_result_invariant envMeta "WhatsApp").2.1 (by decide)
  · exact (lookup_result_invariant envNil "zzzz").2.2 (by decide)

/-- C7 counterexample: with a knowledge-graph-resolved query and
requested limit 1, `search` returns 2 entries, so the result list is
not bounded by the requested limit. -/
theorem search_limit_counterexample :
    (search envMeta "WhatsApp" 1).length = 2 ∧
    ¬ ((search envMeta "WhatsApp" 1).length ≤ 1) := by
  decide

/-- C8 counterexample: the query normalises exactly to the registry
title, yet `lookup` stops below the direct threshold (token_set_ratio
sees the punctuation the normaliser would strip) and answers with
method `fallback` at score 16/19 < 0.85. -/
theorem normalized_equality_direct_counterexample :
    normalizeName "ABC Corp" = normalizeName abcInfo.title ∧
    abcInfo ∈ envAbc.registry ∧
    pyStrip "ABC Corp" = "ABC Corp" ∧
    (lookup envAbc "ABC Corp").1.method = .fallback ∧
    ¬ (lookup envAbc "ABC Corp").1.method = .direct ∧
    (lookup envAbc "ABC Corp").1.confidence < DIRECT_MATCH_THRESHOLD := by
  decide

/-- C8 as amended: normalisation equality is not enough, but whenever
the stripped query's uppercased whitespace token set equals that of
some registry legal name (and is non-empty), the scorer returns a
perfect 1.0, so `lookup` resolves at the Direct stage with confidence
at least `DIRECT_MATCH_THRESHOLD`. -/
theorem token_set_equality_direct (env : Env) (q0 : String) (entry : SecInfo)
    (hmem : entry ∈ env.registry)
    (htok : sortedTokens (upperStr (pyStrip q0)) = sortedTokens (upperStr entry.title))
    (hne : sortedTokens (upperStr (pyStrip q0)) ≠ []) :
    (lookup env q0).1.method = .direct ∧
    DIRECT_MATCH_THRESHOLD ≤ (lookup env q0).1.confidence :=
  lookup_direct_of_perfect_token_match env q0 entry hmem htok hne

/-- Witness for the amended C8: a word-order-permuted, case-changed
query still resolves direct with full confidence. -/
theorem token_set_equality_direct_witness :
    (lookup envAbc "Corp A.B.C.").1.method = .direct ∧
    DIRECT_MATCH_THRESHOLD ≤ (lookup envAbc "Corp A.B.C.").1.confidence :=
  token_set_equality_direct envAbc "Corp A.B.C." abcInfo (by decide) (by decide)
    (by decide)

/-- C9: every ticker of a name retained by the fuzzy extraction appears
as its own candidate carrying that name's score, the candidate count is
the sum over retained names of their ticker counts, and a
dual-share-class registry makes the list longer than the requested
limit with two equal-scoring candidates of distinct tickers. -/
theorem fuzzy_dual_class_candidates (env : Env) (q : String) (limit : Nat) :
    (∀ p ∈ extractTop (upperStr q) (secNames env.registry) limit,
      ∀ info ∈ nameToTickers env.registry p.1,
        (⟨info.ticker, info.title, zfill10 info.cik, p.2⟩ : MatchCand) ∈
          fuzzyMatchSec env q limit)
    ∧ ((fuzzyMatchSec env q limit).length =
        ((extractTop (upperStr q) (secNames env.registry) limit).map
          (fun p => (nameToTickers env.registry p.1).length)).sum)
    ∧ (1 < (fuzzyMatchSec envDual "Alphabet Inc." 1).length ∧
        ∃ c1 c2 rest, fuzzyMatchSec envDual "Alphabet Inc." 1 = c1 :: c2 :: rest ∧
          c1.score = c2.score ∧ c1.ticker ≠ c2.ticker) := by
  refine ⟨?_, ?_, by decide, ?_⟩
  · intro p hp info hinfo
    unfold fuzzyMatchSec
    rw [List.mem_flatMap]
    exact ⟨p, hp, List.mem_map.mpr ⟨info, hinfo, rfl⟩⟩
  · unfold fuzzyMatchSec
    rw [List.length_flatMap]
    simp only [Function.comp_def, List.length_map]
  · exact ⟨⟨"GOOGL", "Alphabet Inc.", "0001652044", 1⟩,
      ⟨"GOOG", "Alphabet Inc.", "0001652044", 1⟩, [], by decide, by decide, by decide⟩

/-- Witness for C9 at the dual-share-class registry. -/
theorem fuzzy_dual_class_candidates_witness :
    (⟨"GOOGL", "Alphabet Inc.", "0001652044", 1⟩ : MatchCand) ∈
      fuzzyMatchSec envDual "Alphabet Inc." 1 ∧
    (fuzzyMatchSec envDual "Alphabet Inc." 1).length =
      ((extractTop (upperStr "Alphabet Inc.") (secNames envDual.registry) 1).map
        (fun p => (nameToTickers envDual.registry p.1).length)).sum := by
  have h := fuzzy_dual_class_candidates envDual "Alphabet Inc." 1
  exact ⟨h.1 ("ALPHABET INC.", 1) (by decide) googlInfo (by decide), h.2.1⟩

end SecTracker

namespace SecTracker

theorem dedupByTicker_cons_mem (seen : List String) (c : MatchCand)
    (rest : List MatchCand) (h : c.ticker ∈ seen) :
    dedupByTicker seen (c :: rest) = dedupByTicker seen rest := by
  conv_lhs => unfold dedupByTicker
  rw [if_pos h]

theorem dedupByTicker_cons_not_mem (seen : List String) (c : MatchCand)
    (rest : List MatchCand) (h : c.ticker ∉ seen) :
    dedupByTicker seen (c :: rest) = c :: dedupByTicker (c.ticker :: seen) rest := by
  conv_lhs => unfold dedupByTicker
  rw [if_neg h]

/-- Exact description of the result loop: when the accumulator already
has `limit` entries only the first candidate is still examined (the
length test runs after each append); otherwise the loop appends the
ticker-deduplicated candidate stream, in order, truncated to the room
left below `limit`. -/
theorem searchLoop_eq (limit : Nat) :
    ∀ (ms : List MatchCand) (acc : List SearchEntry) (seen : List String),
      searchLoop limit ms acc seen =
        if limit ≤ acc.length then
          acc ++ (dedupByTicker seen (ms.take 1)).map entryOfCand
        else
          acc ++ ((dedupByTicker seen ms).take (limit - acc.length)).map entryOfCand := by
  intro ms
  induction ms with
  | nil =>
    intro acc seen
    simp [searchLoop, dedupByTicker]
  | cons c rest ih =>
    intro acc seen
    unfold searchLoop
    by_cases hc : seen.contains c.ticker
    · have hcm : c.ticker ∈ seen := by simpa using hc
      simp only [if_pos hc]
      by_cases hl : limit ≤ acc.length
      · rw [if_pos hl, if_pos hl, List.take_succ_cons, List.take_zero,
          dedupByTicker_cons_mem seen c [] hcm]
        simp [dedupByTicker]
      · rw [if_neg hl, if_neg hl, ih acc seen, if_neg hl,
          dedupByTicker_cons_mem seen c rest hcm]
    · have hcm : c.ticker ∉ seen := by simpa using hc
      simp only [if_neg hc]
      by_cases hl2 : limit ≤ (acc ++ [entryOfCand c]).length
      · rw [if_pos hl2]
        by_cases hl : limit ≤ acc.length
        · rw [if_pos hl, List.take_succ_cons, List.take_zero,
            dedupByTicker_cons_not_mem seen c [] hcm]
          simp [dedupByTicker]
        · rw [if_neg hl]
          have h1 : limit - acc.length = 1 := by
            simp only [List.length_append, List.length_singleton] at hl2
            omega
          rw [h1, dedupByTicker_cons_not_mem seen c rest hcm, List.take_succ_cons,
            List.take_zero]
          simp
      · rw [if_neg hl2]
        have hl : ¬ limit ≤ acc.length := by
          simp only [List.length_append, List.length_singleton] at hl2
          omega
        rw [if_neg hl, ih (acc ++ [entryOfCand c]) (c.ticker :: seen), if_neg hl2,
          dedupByTicker_cons_not_mem seen c rest hcm]
        have h2 : limit - acc.length = (limit - (acc ++ [entryOfCand c]).length) + 1 := by
          simp only [List.length_append, List.length_singleton] at hl2 ⊢
          omega
        rw [h2, List.take_succ_cons]
        simp

end SecTracker

namespace SecTracker

/-- C7 as amended: `search` runs the full single-result resolution
first; when that resolution used the knowledge-graph or generative
stage and its ticker is truthy (present and non-empty), that answer is
placed first and the remainder is exactly the Direct-stage candidate
stream deduplicated by ticker in fuzzy-match order, truncated to the
room left below the limit; otherwise the result is exactly the
truncated deduplicated Direct-stage stream alone.  Because the length
test runs only after each append, at limit at most 1 the first
candidate is still examined, so the list holds at most `max N 2`
entries — at most `N` whenever `N ≥ 2` — and at most `max N 1` entries
when nothing is prepended; tickers never repeat. -/
theorem search_structure_amended (env : Env) (q0 : String) (limit : Nat)
    (hq : pyStrip q0 ≠ "") :
    (∀ t, (lookup env (pyStrip q0)).1.ticker = some t → t ≠ "" →
      ((lookup env (pyStrip q0)).1.method = .wikidata ∨
        (lookup env (pyStrip q0)).1.method = .llm) →
      search env q0 limit =
        ⟨t, (lookup env (pyStrip q0)).1.company_name, tickerToCik env t,
          methodValue (lookup env (pyStrip q0)).1.method,
          (lookup env (pyStrip q0)).1.confidence,
          (lookup env (pyStrip q0)).1.chain⟩ ::
        (if limit ≤ 1 then
          (dedupByTicker [t] ((fuzzyMatchSec env (pyStrip q0) limit).take 1)).map
            entryOfCand
        else
          ((dedupByTicker [t] (fuzzyMatchSec env (pyStrip q0) limit)).take
            (limit - 1)).map entryOfCand))
    ∧ (((lookup env (pyStrip q0)).1.ticker = none ∨
        (lookup env (pyStrip q0)).1.ticker = some "" ∨
        (lookup env (pyStrip q0)).1.method = .direct ∨
        (lookup env (pyStrip q0)).1.method = .fallback) →
      search env q0 limit =
        (if limit = 0 then
          (dedupByTicker [] ((fuzzyMatchSec env (pyStrip q0) limit).take 1)).map
            entryOfCand
        else
          ((dedupByTicker [] (fuzzyMatchSec env (pyStrip q0) limit)).take limit).map
            entryOfCand))
    ∧ ((search env q0 limit).map SearchEntry.ticker).Nodup
    ∧ (search env q0 limit).length ≤ max limit 2
    ∧ (((lookup env (pyStrip q0)).1.ticker = none ∨
        (lookup env (pyStrip q0)).1.ticker = some "" ∨
        (lookup env (pyStrip q0)).1.method = .direct ∨
        (lookup env (pyStrip q0)).1.method = .fallback) →
      (search env q0 limit).length ≤ max limit 1) := by
  unfold search
  simp only [if_neg hq]
  cases hlt : (lookup env (pyStrip q0)).1.ticker with
  | none =>
    dsimp only
    simp only [List.map_nil]
    refine ⟨?_, ?_, ?_, ?_, ?_⟩
    · intro t ht htne hm
      exact absurd ht (by simp)
    · intro _
      rw [searchLoop_eq limit (fuzzyMatchSec env (pyStrip q0) limit) [] []]
      simp only [List.length_nil, List.nil_append, Nat.sub_zero]
      rcases Nat.eq_zero_or_pos limit with rfl | hpos
      · rw [if_pos (Nat.le_refl 0), if_pos rfl]
      · rw [if_neg (Nat.not_le.mpr hpos), if_neg (Nat.pos_iff_ne_zero.mp hpos)]
    · exact searchLoop_nodup limit (fuzzyMatchSec env (pyStrip q0) limit) [] []
        (by simp) (by simp)
    · refine le_trans
        (searchLoop_length limit (fuzzyMatchSec env (pyStrip q0) limit) [] []) ?_
      exact max_le_max (le_refl _) (by norm_num)
    · intro _
      simpa using searchLoop_length limit (fuzzyMatchSec env (pyStrip q0) limit) [] []
  | some t0 =>
    by_cases hcond : t0 ≠ "" ∧ ((lookup env (pyStrip q0)).1.method = .wikidata ∨
        (lookup env (pyStrip q0)).1.method = .llm)
    · dsimp only
      rw [if_pos hcond]
      set E : SearchEntry := ⟨t0, (lookup env (pyStrip q0)).1.company_name,
        tickerToCik env t0, methodValue (lookup env (pyStrip q0)).1.method,
        (lookup env (pyStrip q0)).1.confidence,
        (lookup env (pyStrip q0)).1.chain⟩ with hE
      refine ⟨?_, ?_, ?_, ?_, ?_⟩
      · intro t ht htne hm
        cases ht
        rw [searchLoop_eq limit (fuzzyMatchSec env (pyStrip q0) limit)
          [E] ([E].map (fun e => e.ticker))]
        rw [show ([E].map (fun e => e.ticker)) = [t0] from rfl]
        rw [show ([E] : List SearchEntry).length = 1 from rfl]
        by_cases hlim : limit ≤ 1
        · rw [if_pos hlim, if_pos hlim, List.singleton_append]
        · rw [if_neg hlim, if_neg hlim, List.singleton_append]
      · intro hyp
        rcases hyp with h | h | h | h
        · exact absurd h (by simp)
        · exact absurd (Option.some_inj.mp h) hcond.1
        · rw [h] at hcond
          rcases hcond.2 with h2 | h2 <;> exact absurd h2 (by decide)
        · rw [h] at hcond
          rcases hcond.2 with h2 | h2 <;> exact absurd h2 (by decide)
      · refine searchLoop_nodup limit (fuzzyMatchSec env (pyStrip q0) limit)
          [E] ([E].map (fun e => e.ticker)) (by simp) ?_
        intro e he
        rw [List.mem_singleton] at he
        subst he
        simp
      · simpa using searchLoop_length limit (fuzzyMatchSec env (pyStrip q0) limit)
          [E] ([E].map (fun e => e.ticker))
      · intro hyp
        rcases hyp with h | h | h | h
        · exact absurd h (by simp)
        · exact absurd (Option.some_inj.mp h) hcond.1
        · rw [h] at hcond
          rcases hcond.2 with h2 | h2 <;> exact absurd h2 (by decide)
        · rw [h] at hcond
          rcases hcond.2 with h2 | h2 <;> exact absurd h2 (by decide)
    · dsimp only
      rw [if_neg hcond]
      simp only [List.map_nil]
      refine ⟨?_, ?_, ?_, ?_, ?_⟩
      · intro t ht htne hm
        cases ht
        exact absurd ⟨htne, hm⟩ hcond
      · intro _
        rw [searchLoop_eq limit (fuzzyMatchSec env (pyStrip q0) limit) [] []]
        simp only [List.length_nil, List.nil_append, Nat.sub_zero]
        rcases Nat.eq_zero_or_pos limit with rfl | hpos
        · rw [if_pos (Nat.le_refl 0), if_pos rfl]
        · rw [if_neg (Nat.not_le.mpr hpos), if_neg (Nat.pos_iff_ne_zero.mp hpos)]
      · exact searchLoop_nodup limit (fuzzyMatchSec env (pyStrip q0) limit) [] []
          (by simp) (by simp)
      · refine le_trans
          (searchLoop_length limit (fuzzyMatchSec env (pyStrip q0) limit) [] []) ?_
        exact max_le_max (le_refl _) (by norm_num)
      · intro _
        simpa using searchLoop_length limit (fuzzyMatchSec env (pyStrip q0) limit) [] []

/-- Witness for the amended C7: at limit 1 the graph-resolved answer is
prepended and the remainder is the deduplicated first direct candidate,
giving exactly the two entries of the counterexample, with distinct
tickers and within the `max 1 2` bound. -/
theorem search_structure_amended_witness :
    search envMeta "WhatsApp" 1 =
      (⟨"META", some "Meta Platforms, Inc.", some "0001326801", "wikidata",
        mkRat 9 10, some ["WhatsApp", "Meta Platforms, Inc."]⟩ : SearchEntry) ::
      (dedupByTicker ["META"] ((fuzzyMatchSec envMeta "WhatsApp" 1).take 1)).map
        entryOfCand ∧
    ((search envMeta "WhatsApp" 1).map SearchEntry.ticker).Nodup ∧
    (search envMeta "WhatsApp" 1).length ≤ max 1 2 := by
  have h := search_structure_amended envMeta "WhatsApp" 1 (by decide)
  refine ⟨?_, h.2.2.1, h.2.2.2.1⟩
  have h1 := h.1 "META" (by decide) (by decide) (Or.inl (by decide))
  rw [if_pos (le_refl 1)] at h1
  exact h1

end SecTracker
